import Mathlib

/-!
# AutoStuffing — shallow embedding of the consolidation core

This file embeds the string- and list-level core of `AutoStuffing.py` in
Lean 4 and proves properties of the embedded definitions.  Python strings
are modelled as `List Char` (ASCII behaviour of `str.strip`, `str.upper`,
`str.isdigit` and the regular expressions; every input appearing in the
repository's naming conventions is ASCII).  Workbooks are modelled by
their ordered list of sheet titles; invoice documents by the title of
their first sheet (their invoice number).  File-system discovery order is
modelled by the order of the input lists.
-/

namespace AutoStuffing

/-- ASCII model of Python's `str.strip` whitespace class (`\s`). -/
def pyIsSpace (c : Char) : Bool :=
  c = ' ' || c = '\t' || c = '\n' || c = '\r' || c = '\x0b' || c = '\x0c'

/-- Characters of the `[\w-]` class of `_ESD_PATTERN` (ASCII model). -/
def isWordOrHyphen (c : Char) : Bool :=
  c.isAlphanum || c = '_' || c = '-'

/-- Characters replaced by `_` in `build_upload_table_filename`
(`re.sub(r'[\\/:*?"<>|]', "_", raw)`). -/
def isIllegalFilenameChar (c : Char) : Bool :=
  c = '\\' || c = '/' || c = ':' || c = '*' || c = '?' || c = '\"' || c = '<' || c = '>' || c = '|'

/-- One character of the `re.sub` above. -/
def subIllegal (c : Char) : Char :=
  if isIllegalFilenameChar c then '_' else c

/-- The `",_"` class of `raw.strip(",_")` in `build_upload_table_filename`. -/
def isStripChar (c : Char) : Bool :=
  c = ',' || c = '_'

/-- Drop matching characters from both ends (shape of Python `str.strip`). -/
def dropEnds (p : Char → Bool) (l : List Char) : List Char :=
  ((l.dropWhile p).reverse.dropWhile p).reverse

/-- Python `str.strip()` (ASCII whitespace model). -/
def pyTrim (l : List Char) : List Char :=
  dropEnds pyIsSpace l

/-- Python `raw.strip(",_")`. -/
def stripCommaUnderscore (l : List Char) : List Char :=
  dropEnds isStripChar l

/-- Split a character list on one delimiter character, Python
`name.split(",")` style: always at least one (possibly empty) segment. -/
def splitOnChar (c : Char) : List Char → List (List Char)
  | [] => [[]]
  | x :: xs =>
    match splitOnChar c xs with
    | [] => [[]]
    | h :: t => if x = c then [] :: h :: t else (x :: h) :: t

/-- Python `sep.join(parts)`. -/
def joinSep (sep : List Char) : List (List Char) → List Char
  | [] => []
  | [x] => x
  | x :: y :: xs => x ++ sep ++ joinSep sep (y :: xs)

/-- `parse_name_by_commas`: split on commas, strip each segment. -/
def parseNameByCommas (name : List Char) : List (List Char) :=
  (splitOnChar ',' name).map pyTrim

/-- Decimal digit to its character, as Python `str(n)` renders digits. -/
def digitToChar : Nat → Char
  | 0 => '0' | 1 => '1' | 2 => '2' | 3 => '3' | 4 => '4'
  | 5 => '5' | 6 => '6' | 7 => '7' | 8 => '8' | 9 => '9'
  | _ => '*'

/-- Fuel-bounded decimal rendering (most significant digit first). -/
def natCharsAux : Nat → Nat → List Char
  | 0, _ => []
  | fuel + 1, n =>
    if n < 10 then [digitToChar n]
    else natCharsAux fuel (n / 10) ++ [digitToChar (n % 10)]

/-- Python `str(n)` / `f"{n}"` for a natural number. -/
def natChars (n : Nat) : List Char :=
  natCharsAux (n + 1) n

/-- Numeric value of one decimal digit character. -/
def charVal (c : Char) : Nat :=
  c.toNat - 48

/-- Numeric value of a decimal digit string, Python `int(s)` for an
all-digit `s`. -/
def digitsToNat (l : List Char) : Nat :=
  l.foldl (fun a c => 10 * a + charVal c) 0

/-- Python `s.isdigit()` (ASCII model): nonempty and all decimal digits. -/
def pyIsDigitStr (l : List Char) : Bool :=
  !l.isEmpty && l.all Char.isDigit

/-- `_invoice_number_sort_key`: integer value of the stripped string when
it is all digits, otherwise `0`. -/
def invoiceNumberSortKey (s : List Char) : Nat :=
  let t := pyTrim s
  if pyIsDigitStr t then digitsToNat t else 0

/-- The comparison relation of `sorted(..., key=_invoice_number_sort_key)`. -/
def keyLe (a b : List Char) : Prop :=
  invoiceNumberSortKey a ≤ invoiceNumberSortKey b

instance : DecidableRel keyLe := fun _ _ => Nat.decLe _ _

instance : IsTotal (List Char) keyLe := ⟨fun _ _ => Nat.le_total _ _⟩

instance : IsTrans (List Char) keyLe := ⟨fun _ _ _ => Nat.le_trans⟩

/-- `_sort_invoice_numbers_as_int` (Python `sorted` with the numeric key;
insertion sort is stable exactly like CPython's sort). -/
def sortInvoiceNumbersAsInt (numbers : List (List Char)) : List (List Char) :=
  List.insertionSort keyLe numbers

/-! ## Group keys (`get_group_key`, `_strip_pack_suffix`) -/

/-- Case-insensitive equality with a lowercase ASCII letter pair. -/
def ciChar (c : Char) (lo up : Char) : Bool :=
  c = lo || c = up

/-- The `pack` literal of the pack patterns, case-insensitively, with a
trailing-whitespace condition `rest.all pyIsSpace` for `\s*$`. -/
def matchPackToEnd (allowTrailingSpace : Bool) : List Char → Bool
  | p :: a :: c :: k :: rest =>
    ciChar p 'p' 'P' && ciChar a 'a' 'A' && ciChar c 'c' 'C' && ciChar k 'k' 'K' &&
      (if allowTrailingSpace then rest.all pyIsSpace else rest.isEmpty)
  | _ => false

/-- `_PACK_PATTERN = ^\d+\s*pack$` (case-insensitive): digits, optional
spaces, `pack`, end. -/
def packPattern (l : List Char) : Bool :=
  let d := l.takeWhile Char.isDigit
  let r := l.dropWhile Char.isDigit
  !d.isEmpty && matchPackToEnd false (r.dropWhile pyIsSpace)

/-- Does `l` itself match `\s+\d+\s*pack\s*$` (the whole remainder of the
string from some position on)?  The greedy classes are exact here because
each is followed by a character it cannot match. -/
def packSuffixHere (l : List Char) : Bool :=
  let s1 := l.takeWhile pyIsSpace
  let r1 := l.dropWhile pyIsSpace
  let d1 := r1.takeWhile Char.isDigit
  let r2 := r1.dropWhile Char.isDigit
  !s1.isEmpty && !d1.isEmpty && matchPackToEnd true (r2.dropWhile pyIsSpace)

/-- Remove the leftmost (hence longest) suffix matching
`_PACK_SUFFIX_PATTERN`; scans positions left to right like `re.sub`. -/
def stripPackSuffixAux : List Char → List Char
  | [] => []
  | c :: rest => if packSuffixHere (c :: rest) then [] else c :: stripPackSuffixAux rest

/-- `_strip_pack_suffix`: drop a trailing `" N pack"` qualifier, then strip. -/
def stripPackSuffix (s : List Char) : List Char :=
  if s.isEmpty then s else pyTrim (stripPackSuffixAux s)

/-- `get_group_key`: application (segment 3) + segment 4 + segment 5 with
any pack qualifier stripped; fewer than 3 segments gives the empty key. -/
def getGroupKey (folderName : List Char) : List Char :=
  let parts := parseNameByCommas folderName
  if parts.length < 3 then []
  else
    let app := if parts.length > 3 then parts.getD 3 [] else folderName
    let keyParts :=
      [app]
        ++ (if parts.length > 4 then [pyTrim (parts.getD 4 [])] else [])
        ++ (if parts.length > 5 then
              let product := stripPackSuffix (pyTrim (parts.getD 5 []))
              if !product.isEmpty && !packPattern product then [product] else []
            else [])
    joinSep " | ".toList keyParts

/-! ## Range string (`_invoice_numbers_to_range_string`) -/

/-- One `start` / `start-end` token. -/
def renderRun (start stop : Nat) : List Char :=
  if start = stop then natChars start else natChars start ++ '-' :: natChars stop

/-- Collapse a sorted list into maximal consecutive runs, mirroring the
`while` loops: the current run `[start..prev]` extends while the next
element is `prev + 1`. -/
def collapseAux (start prev : Nat) : List Nat → List (List Char)
  | [] => [renderRun start prev]
  | m :: rest =>
    if m = prev + 1 then collapseAux start m rest
    else renderRun start prev :: collapseAux m m rest

/-- Runs of a sorted list. -/
def collapseRuns : List Nat → List (List Char)
  | [] => []
  | n :: rest => collapseAux n n rest

/-- The integer-parseable entries of the input, in order. -/
def rangeEntries (numbers : List (List Char)) : List Nat :=
  numbers.filterMap fun n =>
    let s := pyTrim n
    if pyIsDigitStr s then some (digitsToNat s) else none

/-- `_invoice_numbers_to_range_string`. -/
def invoiceNumbersToRangeString (numbers : List (List Char)) : List Char :=
  let nums := List.insertionSort (· ≤ ·) (rangeEntries numbers)
  if nums.isEmpty then ['(', ')']
  else '(' :: (joinSep [';'] (collapseRuns nums) ++ [')'])

/-! ## Output name (`build_upload_table_filename`) -/

/-- One folder segment of `build_upload_table_filename`: a pure
`N pack` segment is dropped, a trailing `" N pack"` qualifier is
stripped, empty remainders are dropped. -/
def packFilterPart (p : List Char) : Option (List Char) :=
  let q := pyTrim p
  if packPattern q then none
  else
    let r := stripPackSuffix q
    if r.isEmpty then none else some r

/-- The join / illegal-character substitution / strip / fallback tail of
`build_upload_table_filename`. -/
def assembleName (result : List (List Char)) : List Char :=
  let nameParts := result.filter (fun p => !p.isEmpty)
  let raw := joinSep ", ".toList nameParts
  let stripped := stripCommaUnderscore (raw.map subIllegal)
  if stripped.isEmpty then "upload_table".toList else stripped

/-- The first comma part: the invoice range and count when a nonempty
list is passed (`if invoice_numbers:` — Python truthiness), otherwise the
template's own first part. -/
def uploadFirstPart (tParts : List (List Char))
    (invoiceNumbers : Option (List (List Char))) : List Char :=
  match invoiceNumbers with
  | some (n0 :: ns) =>
    invoiceNumbersToRangeString (n0 :: ns) ++ ' ' :: (natChars (n0 :: ns).length ++ " pcs.".toList)
  | _ => match tParts with
         | [] => "() pcs.".toList
         | t0 :: _ => t0

/-- `build_upload_table_filename`. -/
def buildUploadTableFilename (templateName folderName : List Char)
    (invoiceNumbers : Option (List (List Char))) : List Char :=
  let tParts := parseNameByCommas templateName
  let iParts := (parseNameByCommas folderName).filterMap packFilterPart
  let firstPart := uploadFirstPart tParts invoiceNumbers
  assembleName (firstPart :: ((tParts.drop 1).take 1 ++ iParts.drop 2))

/-! ## Sheet transplanting (`copy_first_sheet_to_workbook`)

The workbook is modelled by its ordered list of sheet titles; the only
title-relevant effect of a transplant is the appended title computed by
the collision logic `name = (new_sheet_name or ws_src.title)[:31]`,
`while f"{base}_{n}" in existing: n += 1`, `name = f"{base}_{n}"[:31]`. -/

/-- The candidate title `f"{base}_{n}"`. -/
def suffixCand (base : List Char) (n : Nat) : List Char :=
  base ++ '_' :: natChars n

/-- The `while f"{base}_{n}" in existing: n += 1` loop.  The fuel
`existing.length + 1` used below always suffices to reach the first free
suffix (`findFreeSuffix_not_mem`), so this is the exact loop result. -/
def findFreeSuffix (base : List Char) (existing : List (List Char)) : Nat → Nat → Nat
  | n, 0 => n
  | n, fuel + 1 =>
    if suffixCand base n ∈ existing then findFreeSuffix base existing (n + 1) fuel else n

/-- The title given to the newly created sheet. -/
def appliedTitle (desired : List Char) (existing : List (List Char)) : List Char :=
  let name := desired.take 31
  if name ∈ existing then
    (suffixCand name (findFreeSuffix name existing 1 (existing.length + 1))).take 31
  else name

/-- `copy_first_sheet_to_workbook` on the title model: appends exactly one
sheet, never touching the existing ones. -/
def copyFirstSheetToWorkbook (sourceTitle : List Char) (targetTitles : List (List Char)) :
    List (List Char) :=
  targetTitles ++ [appliedTitle sourceTitle targetTitles]

/-! ## Group processing (`process_application`)

A discovered invoice document is represented by its invoice number (the
title of its first sheet, `get_first_sheet_name`), listed in discovery
order.  `_fill_total_sheet` only writes cell values and so never changes
the title list. -/

/-- Transplant the given documents in order. -/
def transplantAll : List (List Char) → List (List Char) → List (List Char)
  | [], titles => titles
  | d :: ds, titles => transplantAll ds (copyFirstSheetToWorkbook d titles)

/-- The update branch of `process_application` (the output workbook
exists, with sheet titles `titles0`): keep only documents whose invoice
number is not already a sheet title, sort them by the numeric key,
transplant each; returns the count of newly transplanted sheets and the
final title list. -/
def processUpdate (docs : List (List Char)) (titles0 : List (List Char)) :
    Nat × List (List Char) :=
  let sel := sortInvoiceNumbersAsInt (docs.filter fun d => decide (d ∉ titles0))
  (sel.length, transplantAll sel titles0)

/-- The creation branch of `process_application` (no output workbook yet,
the template's sheet titles are `templateTitles`): sort all discovered
documents by the numeric key and transplant each. -/
def processCreate (docs : List (List Char)) (templateTitles : List (List Char)) :
    Nat × List (List Char) :=
  let sorted := sortInvoiceNumbersAsInt docs
  (sorted.length, transplantAll sorted templateTitles)

/-! ## Summary invoice list (`_get_sorted_invoice_numbers_from_wb`) -/

/-- Membership of a title's stripped uppercase in `_SKIP_SHEET_TITLES`. -/
def skipTitle (t : List Char) : Bool :=
  let u := (pyTrim t).map Char.toUpper
  u = "TOTAL".toList || u = "CONSOLIDATED INVOICE".toList

/-- `_get_sorted_invoice_numbers_from_wb`: the titles of
`wb.worksheets[1:]` that are not reserved, sorted by the numeric key. -/
def getSortedInvoiceNumbersFromWb (titles : List (List Char)) : List (List Char) :=
  let names := (titles.drop 1).filter fun t => !skipTitle t
  if names.isEmpty then [] else sortInvoiceNumbersAsInt names

/-- The invoice list as the claim words it: the titles of **all** sheets
that are not reserved, with no sheet excluded by position.  Written from
the claim's words, to be compared with
`getSortedInvoiceNumbersFromWb` (which is the source's behaviour). -/
def claimedInvoiceListAllSheets (titles : List (List Char)) : List (List Char) :=
  sortInvoiceNumbersAsInt (titles.filter fun t => !skipTitle t)

/-! ## Supporting documents (`_collect_esd_and_gtd_from_one_folder`) -/

/-- Python `name.startswith("GTD_")` — case sensitive. -/
def startsWithGTDMarker (name : List Char) : Bool :=
  "GTD_".toList.isPrefixOf name

/-- Exactly the four characters `.pdf`, case-insensitively
(the `\.pdf$` tail of both patterns). -/
def isPdfExt : List Char → Bool
  | [d0, p, d, f] => d0 = '.' && ciChar p 'p' 'P' && ciChar d 'd' 'D' && ciChar f 'f' 'F'
  | _ => false

/-- `_ESD_PATTERN = ^([\w-]+)\.pdf$` (case-insensitive): a nonempty
word-or-hyphen stem followed by `.pdf`.  The stem class cannot contain
`.`, so the split at the last four characters is exact. -/
def esdMatch (name : List Char) : Bool :=
  5 ≤ name.length && isPdfExt (name.drop (name.length - 4)) &&
    (name.take (name.length - 4)).all isWordOrHyphen

/-- Consume one literal `_`. -/
def expectUnderscore : List Char → Option (List Char)
  | u :: r => if u = '_' then some r else none
  | [] => none

/-- The `(\d+)_(\d+)_(\d+)\.pdf` tail of `_GTD_PATTERN`; each greedy
`\d+` is followed by a non-digit literal, so maximal munch is exact. -/
def parseThreeNums (l : List Char) : Option (List Char × List Char × List Char) :=
  let d1 := l.takeWhile Char.isDigit
  if d1.isEmpty then none
  else
    match expectUnderscore (l.dropWhile Char.isDigit) with
    | none => none
    | some r2 =>
      let d2 := r2.takeWhile Char.isDigit
      if d2.isEmpty then none
      else
        match expectUnderscore (r2.dropWhile Char.isDigit) with
        | none => none
        | some r4 =>
          let d3 := r4.takeWhile Char.isDigit
          let r5 := r4.dropWhile Char.isDigit
          if d3.isEmpty then none
          else if isPdfExt r5 then some (d1, d2, d3) else none

/-- `_GTD_PATTERN = ^GTD_(\d+)_(\d+)_(\d+)\.pdf$` (case-insensitive). -/
def gtdParse (name : List Char) : Option (List Char × List Char × List Char) :=
  match name with
  | c1 :: c2 :: c3 :: c4 :: rest =>
    if ciChar c1 'g' 'G' && ciChar c2 't' 'T' && ciChar c3 'd' 'D' && c4 = '_' then
      parseThreeNums rest
    else none
  | _ => none

/-- The `f"{a}/{b}/{c}"` declaration identifier. -/
def gtdId (a b c : List Char) : List Char :=
  a ++ '/' :: (b ++ '/' :: c)

/-- `_collect_esd_and_gtd_from_one_folder` on the list of direct-child
file names, in enumeration order: returns `(esd_list, gtd_list)`. -/
def collectEsdGtd : List (List Char) → List (List Char) × List (List Char)
  | [] => ([], [])
  | name :: rest =>
    let (es, gs) := collectEsdGtd rest
    if startsWithGTDMarker name then
      match gtdParse name with
      | some (a, b, c) => (es, gtdId a b c :: gs)
      | none => (es, gs)
    else if esdMatch name then (name.take (name.length - 4) :: es, gs)
    else (es, gs)

/-- Per-file generic-record contribution as the claim words it: a file
beginning with the declaration marker is never a generic record; any
other file matching the single-token pattern contributes its name
without the extension. -/
def claimGenericRecord (name : List Char) : Option (List Char) :=
  if startsWithGTDMarker name then none
  else if esdMatch name then some (name.take (name.length - 4)) else none

/-- Per-file declaration-record contribution as the claim words it: only
files beginning with the marker are tested against the three-number
pattern; on match they contribute `a/b/c`. -/
def claimDeclarationRecord (name : List Char) : Option (List Char) :=
  if startsWithGTDMarker name then (gtdParse name).map fun x => gtdId x.1 x.2.1 x.2.2
  else none

/-- Decimal value of a digit string (big-endian inverse of `natChars`). -/
def charsVal (l : List Char) : Nat :=
  l.foldl (fun a c => 10 * a + charVal c) 0

/-! # Theorems -/

theorem digitToChar_charVal (d : Nat) (hd : d < 10) : charVal (digitToChar d) = d := by
  interval_cases d <;> rfl

theorem charsVal_snoc (l : List Char) (c : Char) :
    charsVal (l ++ [c]) = 10 * charsVal l + charVal c := by
  simp [charsVal, List.foldl_append]

theorem natCharsAux_val : ∀ fuel n, n < fuel → charsVal (natCharsAux fuel n) = n := by
  intro fuel
  induction fuel with
  | zero => intro n hn; omega
  | succ fuel ih =>
    intro n hn
    by_cases h : n < 10
    · simp only [natCharsAux, if_pos h]
      simpa [charsVal] using digitToChar_charVal n h
    · have h0 : 0 < n := by omega
      have hdiv : n / 10 < n := Nat.div_lt_self h0 (by omega)
      have hfuel : n / 10 < fuel := by omega
      have hmod : n % 10 < 10 := Nat.mod_lt _ (by omega)
      simp only [natCharsAux, if_neg h]
      rw [charsVal_snoc, ih _ hfuel, digitToChar_charVal _ hmod]
      omega

theorem charsVal_natChars (n : Nat) : charsVal (natChars n) = n :=
  natCharsAux_val (n + 1) n (Nat.lt_succ_self n)

theorem natChars_injective : Function.Injective natChars := by
  intro a b h
  have ha := charsVal_natChars a
  rw [h, charsVal_natChars] at ha
  exact ha.symm

theorem mem_natCharsAux : ∀ fuel n c, c ∈ natCharsAux fuel n → ∃ d, d < 10 ∧ c = digitToChar d := by
  intro fuel
  induction fuel with
  | zero => intro n c hc; simp [natCharsAux] at hc
  | succ fuel ih =>
    intro n c hc
    by_cases h : n < 10
    · simp only [natCharsAux, if_pos h, List.mem_singleton] at hc
      exact ⟨n, h, hc⟩
    · simp only [natCharsAux, if_neg h, List.mem_append, List.mem_singleton] at hc
      rcases hc with hc | hc
      · exact ih _ _ hc
      · exact ⟨n % 10, Nat.mod_lt _ (by omega), hc⟩

theorem mem_natChars_isDigit {n : Nat} {c : Char} (hc : c ∈ natChars n) : c.isDigit = true := by
  obtain ⟨d, hd, rfl⟩ := mem_natCharsAux (n + 1) n c hc
  interval_cases d <;> decide

/-! ## The title-collision loop -/

theorem suffixCand_injective (base : List Char) : Function.Injective (suffixCand base) := by
  intro a b h
  have h2 := List.append_cancel_left (h : base ++ _ = base ++ _)
  exact natChars_injective (List.cons.injEq .. ▸ h2).2

theorem findFreeSuffix_le (base : List Char) (ex : List (List Char)) :
    ∀ fuel n, findFreeSuffix base ex n fuel ≤ n + fuel := by
  intro fuel
  induction fuel with
  | zero => intro n; simp [findFreeSuffix]
  | succ fuel ih =>
    intro n
    simp only [findFreeSuffix]
    split
    · have := ih (n + 1); omega
    · omega

theorem findFreeSuffix_spec (base : List Char) (ex : List (List Char)) :
    ∀ fuel n, suffixCand base (findFreeSuffix base ex n fuel) ∉ ex ∨
      ∀ k, n ≤ k → k < n + fuel + 1 → suffixCand base k ∈ ex := by
  intro fuel
  induction fuel with
  | zero =>
    intro n
    by_cases h : suffixCand base n ∈ ex
    · right; intro k h1 h2
      have : k = n := by omega
      simpa [this] using h
    · left; simp only [findFreeSuffix]; exact h
  | succ fuel ih =>
    intro n
    by_cases h : suffixCand base n ∈ ex
    · rcases ih (n + 1) with h2 | h2
      · left; simpa [findFreeSuffix, h] using h2
      · right; intro k h1 h3
        rcases Nat.eq_or_lt_of_le h1 with rfl | h4
        · exact h
        · exact h2 k h4 (by omega)
    · left; simp only [findFreeSuffix, if_neg h]; exact h

theorem findFreeSuffix_not_mem (base : List Char) (ex : List (List Char)) (n : Nat) :
    suffixCand base (findFreeSuffix base ex n (ex.length + 1)) ∉ ex := by
  rcases findFreeSuffix_spec base ex (ex.length + 1) n with h | h
  · exact h
  · exfalso
    have hinj : Function.Injective (fun i => suffixCand base (n + i)) := by
      intro i j hij
      have := suffixCand_injective base hij
      omega
    have hnd : ((List.range (ex.length + 1)).map (fun i => suffixCand base (n + i))).Nodup :=
      List.Nodup.map hinj (List.nodup_range _)
    have hsub : ((List.range (ex.length + 1)).map (fun i => suffixCand base (n + i))) ⊆ ex := by
      intro x hx
      simp only [List.mem_map, List.mem_range] at hx
      obtain ⟨i, hi, rfl⟩ := hx
      exact h (n + i) (by omega) (by omega)
    have hlen := (List.subperm_of_subset hnd hsub).length_le
    simp only [List.length_map, List.length_range] at hlen
    omega

/-- **C3.**  The title applied by `copy_first_sheet_to_workbook` is
truncated to 31 characters before collision checking; on collision,
suffixes `_1`, `_2`, … are tried until the suffixed candidate is free,
and — *provided the truncated base plus suffix still fits in the
31-character limit* — the applied title is unique among the target
workbook's sheet titles; the copy appends exactly one sheet and never
overwrites an existing one.  (The claim's unconditional uniqueness for
titles of length 31 or longer fails: see
`sheet_title_truncation_collision`.) -/
theorem sheet_title_collision_policy (desired : List Char) (existing : List (List Char))
    (h : ∀ k, k ≤ existing.length + 2 →
      (desired.take 31).length + 1 + (natChars k).length ≤ 31) :
    (appliedTitle desired existing).length ≤ 31 ∧
      appliedTitle desired existing ∉ existing ∧
      copyFirstSheetToWorkbook desired existing = existing ++ [appliedTitle desired existing] := by
  refine ⟨?_, ?_, rfl⟩ <;> by_cases hm : desired.take 31 ∈ existing
  · have hb := findFreeSuffix_le (desired.take 31) existing (existing.length + 1) 1
    have hlen : (suffixCand (desired.take 31)
        (findFreeSuffix (desired.take 31) existing 1 (existing.length + 1))).length ≤ 31 := by
      have h2 := h (findFreeSuffix (desired.take 31) existing 1 (existing.length + 1)) (by omega)
      simp only [suffixCand, List.length_append, List.length_cons] at h2 ⊢
      omega
    simp only [appliedTitle, if_pos hm, List.take_of_length_le hlen]
    exact hlen
  · simp only [appliedTitle, if_neg hm, List.length_take]
    omega
  · have hb := findFreeSuffix_le (desired.take 31) existing (existing.length + 1) 1
    have hlen : (suffixCand (desired.take 31)
        (findFreeSuffix (desired.take 31) existing 1 (existing.length + 1))).length ≤ 31 := by
      have h2 := h (findFreeSuffix (desired.take 31) existing 1 (existing.length + 1)) (by omega)
      simp only [suffixCand, List.length_append, List.length_cons] at h2 ⊢
      omega
    simp only [appliedTitle, if_pos hm, List.take_of_length_le hlen]
    exact findFreeSuffix_not_mem _ _ _
  · simp only [appliedTitle, if_neg hm]
    exact hm

theorem sheet_title_collision_policy_witness :
    (appliedTitle "INV".toList ["INV".toList, "INV_1".toList]).length ≤ 31 ∧
      appliedTitle "INV".toList ["INV".toList, "INV_1".toList] ∉ ["INV".toList, "INV_1".toList] ∧
      copyFirstSheetToWorkbook "INV".toList ["INV".toList, "INV_1".toList] =
        ["INV".toList, "INV_1".toList] ++ [appliedTitle "INV".toList ["INV".toList, "INV_1".toList]] :=
  sheet_title_collision_policy "INV".toList ["INV".toList, "INV_1".toList] (by decide)

/-- **C3, counterexample.**  A 31-character source title colliding with an
existing 31-character sheet title: the suffixed candidate is truncated
back to the colliding base, so the applied title is *not* unique — it is
exactly the already-present title. -/
theorem sheet_title_truncation_collision :
    appliedTitle (List.replicate 31 'A') [List.replicate 31 'A'] = List.replicate 31 'A' ∧
      appliedTitle (List.replicate 31 'A') [List.replicate 31 'A'] ∈ [List.replicate 31 'A'] := by
  constructor <;> decide

/-! ## The summary's invoice list -/

/-- **C2 (amended).**  The summary recomputation takes the titles of all
sheets *after the first sheet* that are not reserved (`TOTAL`,
`CONSOLIDATED INVOICE`, case-insensitively after stripping), and sorts
them ascending by the integer key under which non-numeric titles count
as zero.  (The claim's “no other sheet excluded, regardless of sheet
position” fails: the first sheet is excluded unconditionally, see
`summary_invoice_list_position_counterexample`.) -/
theorem summary_invoice_list (titles : List (List Char)) :
    List.Sorted keyLe (getSortedInvoiceNumbersFromWb titles) ∧
      (getSortedInvoiceNumbersFromWb titles).Perm
        ((titles.drop 1).filter fun t => !skipTitle t) := by
  unfold getSortedInvoiceNumbersFromWb
  by_cases h : ((titles.drop 1).filter fun t => !skipTitle t).isEmpty
  · rw [if_pos h]
    rw [List.isEmpty_iff.mp h]
    exact ⟨List.sorted_nil, List.Perm.refl []⟩
  · rw [if_neg h]
    exact ⟨List.sorted_insertionSort keyLe _, List.perm_insertionSort keyLe _⟩

/-- **C2, counterexample.**  A non-reserved sheet in the first position is
excluded by the source (`wb.worksheets[1:]`), while the claim's
position-independent rule would list it. -/
theorem summary_invoice_list_position_counterexample :
    getSortedInvoiceNumbersFromWb ["5".toList, "TOTAL".toList] = [] ∧
      claimedInvoiceListAllSheets ["5".toList, "TOTAL".toList] = ["5".toList] ∧
      getSortedInvoiceNumbersFromWb ["5".toList, "TOTAL".toList] ≠
        claimedInvoiceListAllSheets ["5".toList, "TOTAL".toList] := by
  refine ⟨by decide, by decide, by decide⟩

/-! ## Supporting-document classification -/

/-- **C4.**  For every list of folder files, the scanner's two result
lists are exactly the per-file classifications the claim describes: a
file beginning with the `GTD_` marker is tested only against the
three-number pattern (contributing `a/b/c` on match, nothing at all on
non-match), and every other file matching the single-token pattern
contributes its name without the `.pdf` extension to the generic list. -/
theorem supporting_document_classification (files : List (List Char)) :
    collectEsdGtd files =
      (files.filterMap claimGenericRecord, files.filterMap claimDeclarationRecord) := by
  induction files with
  | nil => rfl
  | cons name rest ih =>
    simp only [collectEsdGtd, ih, List.filterMap_cons, claimGenericRecord,
      claimDeclarationRecord]
    by_cases h : startsWithGTDMarker name
    · cases hp : gtdParse name with
      | none => simp [h, hp]
      | some x => obtain ⟨a, b, c⟩ := x; simp [h, hp]
    · by_cases he : esdMatch name <;> simp [h, he]

theorem isPdfExt_length {e : List Char} (h : isPdfExt e = true) : e.length = 4 := by
  rcases e with _ | ⟨x1, _ | ⟨x2, _ | ⟨x3, _ | ⟨x4, _ | ⟨x5, t⟩⟩⟩⟩⟩ <;>
    simp_all [isPdfExt]

theorem expectUnderscore_inv {r r2 : List Char} (h : expectUnderscore r = some r2) :
    r = '_' :: r2 := by
  cases r with
  | nil => exact absurd h (by simp [expectUnderscore])
  | cons u t =>
    simp only [expectUnderscore] at h
    split at h
    · simp_all
    · exact absurd h (by simp)

theorem parseThreeNums_inv (l a b c : List Char) (h : parseThreeNums l = some (a, b, c)) :
    ∃ ext, l = a ++ '_' :: (b ++ '_' :: (c ++ ext)) ∧ isPdfExt ext = true ∧
      (∀ x ∈ a, x.isDigit = true) ∧ (∀ x ∈ b, x.isDigit = true) ∧
      (∀ x ∈ c, x.isDigit = true) := by
  unfold parseThreeNums at h
  dsimp only at h
  split at h
  · exact absurd h (by simp)
  · split at h
    · exact absurd h (by simp)
    next r2 heq1 =>
      split at h
      · exact absurd h (by simp)
      · split at h
        · exact absurd h (by simp)
        next r4 heq2 =>
          split at h
          · exact absurd h (by simp)
          · split at h
            next hpdf =>
              simp only [Option.some.injEq, Prod.mk.injEq] at h
              obtain ⟨ha, hb, hc⟩ := h
              subst ha; subst hb; subst hc
              refine ⟨r4.dropWhile Char.isDigit, ?_, hpdf,
                fun x hx => List.mem_takeWhile_imp hx,
                fun x hx => List.mem_takeWhile_imp hx,
                fun x hx => List.mem_takeWhile_imp hx⟩
              have e1 : l = l.takeWhile Char.isDigit ++ l.dropWhile Char.isDigit :=
                (List.takeWhile_append_dropWhile _ _).symm
              have e2 := expectUnderscore_inv heq1
              have e3 : r2 = r2.takeWhile Char.isDigit ++ r2.dropWhile Char.isDigit :=
                (List.takeWhile_append_dropWhile _ _).symm
              have e4 := expectUnderscore_inv heq2
              have e5 : r4 = r4.takeWhile Char.isDigit ++ r4.dropWhile Char.isDigit :=
                (List.takeWhile_append_dropWhile _ _).symm
              conv_lhs => rw [e1, e2]
              conv_lhs => rw [e3, e4]
              conv_lhs => rw [e5]
            next => exact absurd h (by simp)

theorem isDigit_isWordOrHyphen {x : Char} (hx : x.isDigit = true) :
    isWordOrHyphen x = true := by
  simp [isWordOrHyphen, Char.isAlphanum, hx]

theorem gtd_implies_esd (name a b c : List Char) (h : gtdParse name = some (a, b, c)) :
    esdMatch name = true := by
  unfold gtdParse at h
  split at h
  next c1 c2 c3 c4 rest =>
    split at h
    next hcond =>
      simp only [ciChar, Bool.and_eq_true, Bool.or_eq_true, decide_eq_true_eq] at hcond
      obtain ⟨⟨⟨h1, h2⟩, h3⟩, h4⟩ := hcond
      subst h4
      obtain ⟨ext, hrest, hext, ha, hb, hc⟩ := parseThreeNums_inv rest a b c h
      have hname : c1 :: c2 :: c3 :: '_' :: rest =
          (c1 :: c2 :: c3 :: '_' :: (a ++ '_' :: (b ++ '_' :: c))) ++ ext := by
        rw [hrest]; simp
      have hlen4 := isPdfExt_length hext
      rw [hname]
      have hlen : ((c1 :: c2 :: c3 :: '_' :: (a ++ '_' :: (b ++ '_' :: c))) ++ ext).length - 4 =
          (c1 :: c2 :: c3 :: '_' :: (a ++ '_' :: (b ++ '_' :: c))).length := by
        simp only [List.length_append, List.length_cons, hlen4]
        omega
      simp only [esdMatch, hlen, Bool.and_eq_true, decide_eq_true_eq, List.drop_left,
        List.take_left, List.all_eq_true]
      refine ⟨⟨?_, hext⟩, ?_⟩
      · simp only [List.length_append, List.length_cons, hlen4]
        omega
      · intro x hx
        simp only [List.mem_cons, List.mem_append] at hx
        rcases hx with rfl | rfl | rfl | rfl | hx | rfl | hx | rfl | hx
        · rcases h1 with rfl | rfl <;> decide
        · rcases h2 with rfl | rfl <;> decide
        · rcases h3 with rfl | rfl <;> decide
        · decide
        · exact isDigit_isWordOrHyphen (ha x hx)
        · decide
        · exact isDigit_isWordOrHyphen (hb x hx)
        · decide
        · exact isDigit_isWordOrHyphen (hc x hx)
    next => exact absurd h (by simp)
  next => exact absurd h (by simp)

/-- **C10.**  The marker check `name.startswith("GTD_")` is case
sensitive while `_GTD_PATTERN` is case insensitive: every file name that
matches the three-number declaration pattern but does not carry the
uppercase `GTD_` prefix is classified as a *generic* record whose
identifier is the file name without its four-character extension, and it
contributes nothing to the declaration list. -/
theorem lowercase_gtd_classified_generic (name a b c : List Char)
    (h : gtdParse name = some (a, b, c)) (hm : startsWithGTDMarker name = false) :
    collectEsdGtd [name] = ([name.take (name.length - 4)], []) := by
  have he := gtd_implies_esd name a b c h
  simp [collectEsdGtd, hm, he]

theorem lowercase_gtd_classified_generic_witness :
    collectEsdGtd ["gtd_1_2_3.pdf".toList] = (["gtd_1_2_3".toList], []) :=
  (lowercase_gtd_classified_generic "gtd_1_2_3.pdf".toList "1".toList "2".toList "3".toList
      (by decide) (by decide)).trans (by decide)

/-! ## Group keys -/

/-- **C9.**  A folder name with exactly 3 comma-separated segments gets
the fallback key: the whole original folder name, which is never empty;
hence two distinct 3-segment names always get distinct keys. -/
theorem group_key_three_segments (name : List Char)
    (h : (parseNameByCommas name).length = 3) :
    getGroupKey name = name ∧ name ≠ [] ∧
      ∀ other, (parseNameByCommas other).length = 3 →
        getGroupKey name = getGroupKey other → name = other := by
  have main : ∀ m : List Char, (parseNameByCommas m).length = 3 → getGroupKey m = m := by
    intro m hm
    simp [getGroupKey, hm, joinSep]
  refine ⟨main name h, ?_, ?_⟩
  · intro h0
    subst h0
    have h1 : (parseNameByCommas ([] : List Char)).length = 1 := by decide
    omega
  · intro other h2 h3
    rw [main name h, main other h2] at h3
    exact h3

theorem group_key_three_segments_witness :
    getGroupKey "A,B,C".toList = "A,B,C".toList ∧ "A,B,C".toList ≠ ([] : List Char) :=
  ⟨(group_key_three_segments "A,B,C".toList (by decide)).1,
    (group_key_three_segments "A,B,C".toList (by decide)).2.1⟩

/-- **C5.**  `get_group_key` ignores a trailing `<int> pack` qualifier of
the sixth segment (the two example names share a key), distinguishes the
fifth segment (`Type1` vs `Type2`), returns the empty key for names with
fewer than 3 comma segments, and drops a sixth segment entirely when the
stripped remainder is empty or itself a pure `<int> pack` token. -/
theorem group_key_properties :
    getGroupKey "A, B, C, App1, Type1, spr 16 pack".toList =
        getGroupKey "A, B, C, App1, Type1, spr 9 pack".toList ∧
      getGroupKey "A, B, C, App1, Type1, spr 16 pack".toList ≠
        getGroupKey "A, B, C, App1, Type2, spr 16 pack".toList ∧
      (∀ name : List Char, (parseNameByCommas name).length < 3 → getGroupKey name = []) ∧
      (∀ name : List Char, 5 < (parseNameByCommas name).length →
        (stripPackSuffix (pyTrim ((parseNameByCommas name).getD 5 [])) = [] ∨
          packPattern (stripPackSuffix (pyTrim ((parseNameByCommas name).getD 5 []))) = true) →
        getGroupKey name = joinSep " | ".toList
          [(parseNameByCommas name).getD 3 [], pyTrim ((parseNameByCommas name).getD 4 [])]) := by
  refine ⟨by decide, by decide, ?_, ?_⟩
  · intro name h
    unfold getGroupKey
    dsimp only
    rw [if_pos h]
  · intro name h5 hprod
    unfold getGroupKey
    dsimp only
    rw [if_neg (by omega : ¬(parseNameByCommas name).length < 3),
      if_pos (by omega : (parseNameByCommas name).length > 3),
      if_pos (by omega : (parseNameByCommas name).length > 4),
      if_pos (by omega : (parseNameByCommas name).length > 5)]
    have hcond : (!(stripPackSuffix (pyTrim ((parseNameByCommas name).getD 5 []))).isEmpty &&
        !packPattern (stripPackSuffix (pyTrim ((parseNameByCommas name).getD 5 [])))) = false := by
      rcases hprod with h | h <;> rw [h] <;> simp
    rw [if_neg (by simp only [hcond]; decide)]
    rfl

theorem group_key_properties_witness :
    getGroupKey "A, B".toList = [] ∧
      getGroupKey "A,B,C,D,E, 16 pack".toList =
        joinSep " | ".toList [(parseNameByCommas "A,B,C,D,E, 16 pack".toList).getD 3 [],
          pyTrim ((parseNameByCommas "A,B,C,D,E, 16 pack".toList).getD 4 [])] :=
  ⟨group_key_properties.2.2.1 "A, B".toList (by decide),
    group_key_properties.2.2.2 "A,B,C,D,E, 16 pack".toList (by decide) (by decide)⟩

/-! ## The range string -/

/-- **C6.**  The range encoder on the spec's three examples, and
order-independence: permuting the input never changes the output. -/
theorem range_string_properties :
    invoiceNumbersToRangeString [] = "()".toList ∧
      invoiceNumbersToRangeString ["7".toList] = "(7)".toList ∧
      invoiceNumbersToRangeString
          ["43".toList, "93".toList, "95".toList, "96".toList, "97".toList, "100".toList] =
        "(43;93;95-97;100)".toList ∧
      ∀ l1 l2 : List (List Char), l1.Perm l2 →
        invoiceNumbersToRangeString l1 = invoiceNumbersToRangeString l2 := by
  refine ⟨by decide, by decide, by decide, ?_⟩
  intro l1 l2 hp
  have hperm : (rangeEntries l1).Perm (rangeEntries l2) := List.Perm.filterMap _ hp
  have hsorteq : List.insertionSort (· ≤ ·) (rangeEntries l1) =
      List.insertionSort (· ≤ ·) (rangeEntries l2) :=
    List.eq_of_perm_of_sorted
      (((List.perm_insertionSort _ _).trans hperm).trans (List.perm_insertionSort _ _).symm)
      (List.sorted_insertionSort _ _) (List.sorted_insertionSort _ _)
  unfold invoiceNumbersToRangeString
  rw [hsorteq]

theorem range_string_properties_witness :
    invoiceNumbersToRangeString ["93".toList, "43".toList] =
      invoiceNumbersToRangeString ["43".toList, "93".toList] :=
  range_string_properties.2.2.2 ["93".toList, "43".toList] ["43".toList, "93".toList]
    (by decide)

/-! ## Group processing -/

theorem transplantAll_append (ds : List (List Char)) :
    ∀ ts, ∃ ap, transplantAll ds ts = ts ++ ap ∧ ap.length = ds.length := by
  induction ds with
  | nil => intro ts; exact ⟨[], by simp [transplantAll], rfl⟩
  | cons d rest ih =>
    intro ts
    obtain ⟨ap, hap, hlen⟩ := ih (copyFirstSheetToWorkbook d ts)
    refine ⟨appliedTitle d ts :: ap, ?_, by simp [hlen]⟩
    calc transplantAll (d :: rest) ts
        = transplantAll rest (ts ++ [appliedTitle d ts]) := rfl
      _ = (ts ++ [appliedTitle d ts]) ++ ap := hap
      _ = ts ++ appliedTitle d ts :: ap := by simp

theorem mem_transplantAll (ds ts : List (List Char)) {x : List Char} (hx : x ∈ ts) :
    x ∈ transplantAll ds ts := by
  obtain ⟨ap, hap, _⟩ := transplantAll_append ds ts
  rw [hap]
  exact List.mem_append_left _ hx

theorem title_mem_transplantAll (ds : List (List Char)) :
    ∀ ts, (∀ d ∈ ds, d.length ≤ 31) → ∀ d ∈ ds, d ∈ transplantAll ds ts := by
  induction ds with
  | nil => simp
  | cons d0 rest ih =>
    intro ts h31 d hd
    rcases List.mem_cons.mp hd with rfl | hd
    · have hstep : transplantAll (d :: rest) ts =
          transplantAll rest (copyFirstSheetToWorkbook d ts) := rfl
      rw [hstep]
      apply mem_transplantAll
      unfold copyFirstSheetToWorkbook
      by_cases hm : d ∈ ts
      · exact List.mem_append_left _ hm
      · have ht : d.take 31 = d := List.take_of_length_le (h31 d (List.mem_cons_self d rest))
        have happ : appliedTitle d ts = d := by
          unfold appliedTitle
          dsimp only
          rw [ht, if_neg hm]
        rw [happ]
        simp
    · exact ih (copyFirstSheetToWorkbook d0 ts) (fun x hx => h31 x (List.mem_cons_of_mem _ hx)) d hd

/-- **C8.**  Within one group the documents are transplanted in ascending
order of the integer value of their invoice number: the update branch
sorts the subset of discovered numbers not already present as sheet
titles by that key and transplants them in that order, appending them to
the existing titles; the creation branch does the same with all
discovered documents starting from the template's sheets. -/
theorem transplant_order_sorted (docs t0 : List (List Char)) :
    (processUpdate docs t0).1 =
        (sortInvoiceNumbersAsInt (docs.filter fun d => decide (d ∉ t0))).length ∧
      List.Sorted keyLe (sortInvoiceNumbersAsInt (docs.filter fun d => decide (d ∉ t0))) ∧
      (sortInvoiceNumbersAsInt (docs.filter fun d => decide (d ∉ t0))).Perm
        (docs.filter fun d => decide (d ∉ t0)) ∧
      (processUpdate docs t0).2 =
        transplantAll (sortInvoiceNumbersAsInt (docs.filter fun d => decide (d ∉ t0))) t0 ∧
      (∃ appended, (processUpdate docs t0).2 = t0 ++ appended ∧
        appended.length = (processUpdate docs t0).1) ∧
      List.Sorted keyLe (sortInvoiceNumbersAsInt docs) ∧
      (sortInvoiceNumbersAsInt docs).Perm docs ∧
      (processCreate docs t0).2 = transplantAll (sortInvoiceNumbersAsInt docs) t0 ∧
      (∃ appended, (processCreate docs t0).2 = t0 ++ appended ∧
        appended.length = (processCreate docs t0).1) := by
  refine ⟨rfl, List.sorted_insertionSort keyLe _, List.perm_insertionSort keyLe _, rfl,
    ?_, List.sorted_insertionSort keyLe _, List.perm_insertionSort keyLe _, rfl, ?_⟩
  · obtain ⟨ap, hap, hlen⟩ :=
      transplantAll_append (sortInvoiceNumbersAsInt (docs.filter fun d => decide (d ∉ t0))) t0
    exact ⟨ap, hap, hlen⟩
  · obtain ⟨ap, hap, hlen⟩ := transplantAll_append (sortInvoiceNumbersAsInt docs) t0
    exact ⟨ap, hap, hlen⟩

/-- **C1 (amended).**  For a group whose discovered documents are
unchanged, a second `process_application` run transplants zero new
sheets and leaves the title list (hence the title set) unchanged — for
all invoice numbers *of length at most 31*, including numbers colliding
with titles already present.  (For invoice numbers longer than 31
characters the stored sheet title is the truncation, which never equals
the full invoice number, so such documents are re-transplanted on every
run: see `process_application_long_title_recopied`.)  The first run may
be either the creation branch or the update branch. -/
theorem process_application_idempotent (docs t0 : List (List Char))
    (h31 : ∀ d ∈ docs, d.length ≤ 31) :
    processUpdate docs (processCreate docs t0).2 = (0, (processCreate docs t0).2) ∧
      processUpdate docs (processUpdate docs t0).2 = (0, (processUpdate docs t0).2) := by
  have key : ∀ t1 : List (List Char), (∀ d ∈ docs, d ∈ t1) →
      processUpdate docs t1 = (0, t1) := by
    intro t1 hall
    have hf : docs.filter (fun d => decide (d ∉ t1)) = [] := by
      rw [List.filter_eq_nil_iff]
      intro a ha
      simp [hall a ha]
    unfold processUpdate
    dsimp only
    rw [hf]
    rfl
  constructor
  · apply key
    intro d hd
    have hd2 : d ∈ sortInvoiceNumbersAsInt docs :=
      ((List.perm_insertionSort keyLe docs).mem_iff).mpr hd
    exact title_mem_transplantAll (sortInvoiceNumbersAsInt docs) t0
      (fun x hx => h31 x (((List.perm_insertionSort keyLe docs).mem_iff).mp hx)) d hd2
  · apply key
    intro d hd
    by_cases hm : d ∈ t0
    · exact mem_transplantAll _ _ hm
    · have hd2 : d ∈ docs.filter fun x => decide (x ∉ t0) :=
        List.mem_filter.mpr ⟨hd, by simp [hm]⟩
      have hd3 : d ∈ sortInvoiceNumbersAsInt (docs.filter fun x => decide (x ∉ t0)) :=
        ((List.perm_insertionSort keyLe _).mem_iff).mpr hd2
      exact title_mem_transplantAll _ t0
        (fun x hx => h31 x
          (List.mem_filter.mp (((List.perm_insertionSort keyLe _).mem_iff).mp hx)).1) d hd3

theorem process_application_idempotent_witness :
    processUpdate ["7".toList] (processCreate ["7".toList] ["Total".toList]).2 =
        (0, (processCreate ["7".toList] ["Total".toList]).2) ∧
      processUpdate ["7".toList] (processUpdate ["7".toList] ["Total".toList]).2 =
        (0, (processUpdate ["7".toList] ["Total".toList]).2) :=
  process_application_idempotent ["7".toList] ["Total".toList] (by decide)

/-- **C1, counterexample.**  A single document whose invoice number has
32 characters: the first run stores the 31-character truncation as the
sheet title, the second run does not find the full 32-character number
among the titles and transplants the document again — 1 new sheet, not
0. -/
theorem process_application_long_title_recopied :
    (processUpdate [List.replicate 32 'A']
      (processCreate [List.replicate 32 'A'] ["Total".toList]).2).1 = 1 := by
  decide

/-! ## The output file name -/

theorem map_id_of_mem {l : List Char} {f : Char → Char} (h : ∀ c ∈ l, f c = c) :
    l.map f = l := by
  induction l with
  | nil => rfl
  | cons x xs ih =>
    rw [List.map_cons, h x (List.mem_cons_self x xs),
      ih fun c hc => h c (List.mem_cons_of_mem _ hc)]

theorem dropWhile_append_of_neg {p : Char → Bool} {x : Char} (hx : p x = false) :
    ∀ (A B : List Char), List.dropWhile p (A ++ x :: B) = List.dropWhile p A ++ x :: B := by
  intro A B
  induction A with
  | nil => simp [List.dropWhile_cons, hx]
  | cons a A ih =>
    by_cases ha : p a
    · simp [List.dropWhile_cons, ha, ih]
    · simp [List.dropWhile_cons, ha]

theorem dropEnds_eq_self {p : Char → Bool} {l : List Char} (hne : l ≠ [])
    (hh : p (l.headD ' ') = false) (hl : p (l.getLastD ' ') = false) :
    dropEnds p l = l := by
  obtain ⟨h0, t, rfl⟩ := List.exists_cons_of_ne_nil hne
  simp only [List.headD_cons] at hh
  have h1 : List.dropWhile p (h0 :: t) = h0 :: t := by
    rw [List.dropWhile_cons, if_neg (by simp [hh])]
  rcases List.eq_nil_or_concat (h0 :: t) with h2 | ⟨L, z, h2⟩
  · exact absurd h2 (by simp)
  · rw [List.concat_eq_append] at h2
    rw [h2, List.getLastD_concat] at hl
    unfold dropEnds
    rw [h1, h2, List.reverse_append, List.reverse_singleton, List.singleton_append,
      List.dropWhile_cons, if_neg (by simp [hl])]
    simp

theorem splitOnChar_ne_nil (c : Char) : ∀ l, splitOnChar c l ≠ [] := by
  intro l
  cases l with
  | nil => simp [splitOnChar]
  | cons x xs =>
    cases hs : splitOnChar c xs with
    | nil => simp [splitOnChar, hs]
    | cons h t => by_cases hx : x = c <;> simp [splitOnChar, hs, hx]

theorem splitOnChar_of_not_mem {c : Char} : ∀ {l : List Char}, c ∉ l → splitOnChar c l = [l] := by
  intro l
  induction l with
  | nil => intro _; rfl
  | cons x xs ih =>
    intro h
    have hx : x ≠ c := fun e => h (by simp [e])
    have hxs : c ∉ xs := fun hc => h (List.mem_cons_of_mem _ hc)
    simp [splitOnChar, ih hxs, hx]

theorem splitOnChar_append (c : Char) : ∀ (A B : List Char), c ∉ A →
    splitOnChar c (A ++ c :: B) = A :: splitOnChar c B := by
  intro A
  induction A with
  | nil =>
    intro B _
    cases hs : splitOnChar c B with
    | nil => exact absurd hs (splitOnChar_ne_nil c B)
    | cons h t => simp [splitOnChar, hs]
  | cons a A ih =>
    intro B h
    have ha : a ≠ c := fun e => h (by simp [e])
    have hA : c ∉ A := fun hc => h (List.mem_cons_of_mem _ hc)
    have hrec := ih B hA
    simp [splitOnChar, hrec, ha]

theorem parse_head_of_append {fp Z : List Char} (hcomma : ',' ∉ fp) :
    (parseNameByCommas (fp ++ ',' :: Z)).getD 0 [] = pyTrim fp := by
  unfold parseNameByCommas
  rw [splitOnChar_append ',' fp Z hcomma]
  rfl

theorem parse_ne_nil (l : List Char) : parseNameByCommas l ≠ [] := by
  unfold parseNameByCommas
  simp [splitOnChar_ne_nil]

theorem strip_middle (fp M : List Char) (hne : fp ≠ [])
    (hhead : isStripChar (fp.headD ' ') = false) :
    stripCommaUnderscore (fp ++ ',' :: ' ' :: M) =
      fp ++ ',' :: ' ' :: (List.dropWhile isStripChar M.reverse).reverse := by
  unfold stripCommaUnderscore dropEnds
  obtain ⟨h0, t, rfl⟩ := List.exists_cons_of_ne_nil hne
  simp only [List.headD_cons] at hhead
  have hfront : List.dropWhile isStripChar ((h0 :: t) ++ ',' :: ' ' :: M) =
      (h0 :: t) ++ ',' :: ' ' :: M := by
    rw [List.cons_append, List.dropWhile_cons, if_neg (by simp [hhead])]
  rw [hfront]
  have hrev : ((h0 :: t) ++ ',' :: ' ' :: M).reverse =
      M.reverse ++ ' ' :: ',' :: (h0 :: t).reverse := by
    simp
  rw [hrev, dropWhile_append_of_neg (by decide : isStripChar ' ' = false)]
  simp

/-- The first comma part of the assembled output name is the first part
fed into the assembly whenever that part is nonempty, free of illegal
characters and commas, stripped, and does not begin or end with a
character of the `",_"` strip class. -/
theorem assembleName_firstPart (fp : List Char) (rest : List (List Char))
    (hne : fp ≠ [])
    (hlegal : ∀ c ∈ fp, subIllegal c = c)
    (hcomma : ',' ∉ fp)
    (hhead : isStripChar (fp.headD ' ') = false)
    (hlast : isStripChar (fp.getLastD ' ') = false)
    (htrim : pyTrim fp = fp) :
    (parseNameByCommas (assembleName (fp :: rest))).getD 0 [] = fp := by
  unfold assembleName
  dsimp only
  rw [List.filter_cons_of_pos (by simp [hne])]
  cases hr : rest.filter (fun p => !p.isEmpty) with
  | nil =>
    have hj : joinSep (", ".toList) [fp] = fp := rfl
    rw [hj, map_id_of_mem hlegal]
    have hs : stripCommaUnderscore fp = fp := dropEnds_eq_self hne hhead hlast
    rw [hs, if_neg (by simp [hne])]
    unfold parseNameByCommas
    rw [splitOnChar_of_not_mem hcomma]
    simp [htrim]
  | cons q qs =>
    have hj : joinSep (", ".toList) (fp :: q :: qs) =
        fp ++ ',' :: ' ' :: joinSep (", ".toList) (q :: qs) := by
      rw [show joinSep (", ".toList) (fp :: q :: qs) =
          fp ++ ", ".toList ++ joinSep (", ".toList) (q :: qs) from rfl]
      rw [show ", ".toList = [',', ' '] from by decide]
      simp
    rw [hj]
    have hmap : (fp ++ ',' :: ' ' :: joinSep (", ".toList) (q :: qs)).map subIllegal =
        fp ++ ',' :: ' ' :: (joinSep (", ".toList) (q :: qs)).map subIllegal := by
      rw [List.map_append, map_id_of_mem hlegal]
      rfl
    rw [hmap, strip_middle fp _ hne hhead]
    rw [if_neg (by obtain ⟨h0, t, rfl⟩ := List.exists_cons_of_ne_nil hne; simp)]
    rw [parse_head_of_append hcomma, htrim]

theorem mem_joinSep {sep : List Char} : ∀ (ps : List (List Char)) (x : Char),
    x ∈ joinSep sep ps → x ∈ sep ∨ ∃ p ∈ ps, x ∈ p := by
  intro ps
  induction ps with
  | nil => intro x hx; simp [joinSep] at hx
  | cons a ps2 ih =>
    intro x hx
    cases ps2 with
    | nil => right; exact ⟨a, by simp, by simpa [joinSep] using hx⟩
    | cons b ps3 =>
      rw [show joinSep sep (a :: b :: ps3) = a ++ sep ++ joinSep sep (b :: ps3) from rfl] at hx
      simp only [List.mem_append] at hx
      rcases hx with (hx | hx) | hx
      · right; exact ⟨a, by simp, hx⟩
      · left; exact hx
      · rcases ih x hx with h | ⟨p, hp, hxp⟩
        · left; exact h
        · right; exact ⟨p, by simp [hp], hxp⟩

theorem mem_renderRun {s e : Nat} {x : Char} (hx : x ∈ renderRun s e) :
    x.isDigit = true ∨ x = '-' := by
  unfold renderRun at hx
  split at hx
  · exact Or.inl (mem_natChars_isDigit hx)
  · simp only [List.mem_append, List.mem_cons] at hx
    rcases hx with hx | rfl | hx
    · exact Or.inl (mem_natChars_isDigit hx)
    · exact Or.inr rfl
    · exact Or.inl (mem_natChars_isDigit hx)

theorem mem_collapseAux : ∀ (l : List Nat) (s p : Nat) (q : List Char),
    q ∈ collapseAux s p l → ∃ s2 e2, q = renderRun s2 e2 := by
  intro l
  induction l with
  | nil =>
    intro s p q hq
    simp only [collapseAux, List.mem_singleton] at hq
    exact ⟨s, p, hq⟩
  | cons m rest ih =>
    intro s p q hq
    unfold collapseAux at hq
    split at hq
    · exact ih s m q hq
    · rcases List.mem_cons.mp hq with rfl | hq
      · exact ⟨s, p, rfl⟩
      · exact ih m m q hq

theorem mem_collapseRuns {l : List Nat} {q : List Char} (hq : q ∈ collapseRuns l) :
    ∃ s e, q = renderRun s e := by
  cases l with
  | nil => simp [collapseRuns] at hq
  | cons n rest => exact mem_collapseAux rest n n q hq

theorem mem_rangeString {l : List (List Char)} {x : Char}
    (hx : x ∈ invoiceNumbersToRangeString l) :
    x.isDigit = true ∨ x ∈ ['(', ')', ';', '-'] := by
  unfold invoiceNumbersToRangeString at hx
  dsimp only at hx
  split at hx
  · right
    simp only [List.mem_cons, List.not_mem_nil, or_false] at hx
    rcases hx with rfl | rfl <;> decide
  · rcases List.mem_cons.mp hx with rfl | hx2
    · right; decide
    · simp only [List.mem_append, List.mem_singleton] at hx2
      rcases hx2 with hx2 | rfl
      · rcases mem_joinSep _ x hx2 with hs | ⟨p, hp, hxp⟩
        · simp only [List.mem_singleton] at hs
          subst hs; right; decide
        · obtain ⟨s2, e2, rfl⟩ := mem_collapseRuns hp
          rcases mem_renderRun hxp with h | rfl
          · exact Or.inl h
          · right; decide
      · right; decide

theorem rangeString_head (l : List (List Char)) :
    ∃ t, invoiceNumbersToRangeString l = '(' :: t := by
  unfold invoiceNumbersToRangeString
  dsimp only
  split
  · exact ⟨[')'], rfl⟩
  · exact ⟨_, rfl⟩

theorem good_char_props {c : Char}
    (h : c.isDigit = true ∨ c ∈ ['(', ')', ';', '-', ' ', 'p', 'c', 's', '.']) :
    subIllegal c = c ∧ isStripChar c = false ∧ c ≠ ',' := by
  rcases h with h | h
  · have hni : ¬isIllegalFilenameChar c = true := by
      intro hi
      simp only [isIllegalFilenameChar, Bool.or_eq_true, decide_eq_true_eq, or_assoc] at hi
      rcases hi with rfl | rfl | rfl | rfl | rfl | rfl | rfl | rfl | rfl <;>
        exact absurd h (by decide)
    have hc1 : c ≠ ',' := by intro h0; subst h0; exact absurd h (by decide)
    have hc2 : c ≠ '_' := by intro h0; subst h0; exact absurd h (by decide)
    exact ⟨by simp [subIllegal, hni], by simp [isStripChar, hc1, hc2], hc1⟩
  · simp only [List.mem_cons, List.not_mem_nil, or_false] at h
    rcases h with rfl | rfl | rfl | rfl | rfl | rfl | rfl | rfl | rfl <;>
      exact ⟨by decide, by decide, by decide⟩

theorem range_fp_chars (ns : List (List Char)) (k : Nat) :
    ∀ c ∈ invoiceNumbersToRangeString ns ++ ' ' :: (natChars k ++ " pcs.".toList),
      c.isDigit = true ∨ c ∈ ['(', ')', ';', '-', ' ', 'p', 'c', 's', '.'] := by
  intro c hc
  simp only [List.mem_append, List.mem_cons] at hc
  rcases hc with hc | rfl | hc | hc
  · rcases mem_rangeString hc with h | h
    · exact Or.inl h
    · right
      simp only [List.mem_cons, List.not_mem_nil, or_false] at h
      rcases h with rfl | rfl | rfl | rfl <;> decide
  · right; decide
  · exact Or.inl (mem_natChars_isDigit hc)
  · right
    rw [show " pcs.".toList = [' ', 'p', 'c', 's', '.'] from by decide] at hc
    simp only [List.mem_cons, List.not_mem_nil, or_false] at hc
    rcases hc with rfl | rfl | rfl | rfl | rfl <;> decide

theorem range_firstPart_props (ns : List (List Char)) (k : Nat) :
    invoiceNumbersToRangeString ns ++ ' ' :: (natChars k ++ " pcs.".toList) ≠ [] ∧
      (∀ c ∈ invoiceNumbersToRangeString ns ++ ' ' :: (natChars k ++ " pcs.".toList),
        subIllegal c = c) ∧
      ',' ∉ invoiceNumbersToRangeString ns ++ ' ' :: (natChars k ++ " pcs.".toList) ∧
      isStripChar ((invoiceNumbersToRangeString ns ++
        ' ' :: (natChars k ++ " pcs.".toList)).headD ' ') = false ∧
      isStripChar ((invoiceNumbersToRangeString ns ++
        ' ' :: (natChars k ++ " pcs.".toList)).getLastD ' ') = false ∧
      pyTrim (invoiceNumbersToRangeString ns ++ ' ' :: (natChars k ++ " pcs.".toList)) =
        invoiceNumbersToRangeString ns ++ ' ' :: (natChars k ++ " pcs.".toList) := by
  obtain ⟨t0, ht0⟩ := rangeString_head ns
  have hfp : invoiceNumbersToRangeString ns ++ ' ' :: (natChars k ++ " pcs.".toList) =
      '(' :: (t0 ++ ' ' :: (natChars k ++ " pcs.".toList)) := by rw [ht0]; rfl
  have hsplit : invoiceNumbersToRangeString ns ++ ' ' :: (natChars k ++ " pcs.".toList) =
      (invoiceNumbersToRangeString ns ++ ' ' :: (natChars k ++ [' ', 'p', 'c', 's'])) ++ ['.'] := by
    rw [show " pcs.".toList = [' ', 'p', 'c', 's'] ++ ['.'] from by decide]
    simp
  have hne : invoiceNumbersToRangeString ns ++ ' ' :: (natChars k ++ " pcs.".toList) ≠ [] := by
    rw [hfp]; simp
  have hlast : (invoiceNumbersToRangeString ns ++
      ' ' :: (natChars k ++ " pcs.".toList)).getLastD ' ' = '.' := by
    rw [hsplit, List.getLastD_concat]
  have hheadv : (invoiceNumbersToRangeString ns ++
      ' ' :: (natChars k ++ " pcs.".toList)).headD ' ' = '(' := by
    rw [hfp]; rfl
  refine ⟨hne, ?_, ?_, ?_, ?_, ?_⟩
  · exact fun c hc => (good_char_props (range_fp_chars ns k c hc)).1
  · exact fun hc => (good_char_props (range_fp_chars ns k ',' hc)).2.2 rfl
  · rw [hheadv]; decide
  · rw [hlast]; decide
  · unfold pyTrim
    refine dropEnds_eq_self hne ?_ ?_
    · rw [hheadv]; decide
    · rw [hlast]; decide

/-- **C7 (amended).**  The output-namer examples: with the template
`"() pcs., LI, 40_2023"` and the folder
`"A, B, Add. VP-CH-2510-23, ZLPK (TS), pine"` the first two comma parts
are `"() pcs."` and `"LI"`; supplying `["43","93"]` changes only the
first part, to `"(43;93) 2 pcs."`.  In general, when the supplied
`invoiceNumbers` list is *nonempty* the first part is the encoded range,
the count and `" pcs."`; a supplied *empty* list behaves exactly like an
absent one (Python truthiness — see
`upload_filename_empty_list_counterexample`), and with no (or an empty)
list the first part is the template's own first comma part, whenever
that part is nonempty, free of characters illegal in file names, and
neither starts nor ends with `','` or `'_'`. -/
theorem upload_filename_first_part :
    ((parseNameByCommas (buildUploadTableFilename "() pcs., LI, 40_2023".toList
        "A, B, Add. VP-CH-2510-23, ZLPK (TS), pine".toList none)).getD 0 [] =
          "() pcs.".toList ∧
      (parseNameByCommas (buildUploadTableFilename "() pcs., LI, 40_2023".toList
        "A, B, Add. VP-CH-2510-23, ZLPK (TS), pine".toList none)).getD 1 [] = "LI".toList) ∧
    ((parseNameByCommas (buildUploadTableFilename "() pcs., LI, 40_2023".toList
        "A, B, Add. VP-CH-2510-23, ZLPK (TS), pine".toList
        (some ["43".toList, "93".toList]))).getD 0 [] = "(43;93) 2 pcs.".toList ∧
      (parseNameByCommas (buildUploadTableFilename "() pcs., LI, 40_2023".toList
        "A, B, Add. VP-CH-2510-23, ZLPK (TS), pine".toList
        (some ["43".toList, "93".toList]))).drop 1 =
      (parseNameByCommas (buildUploadTableFilename "() pcs., LI, 40_2023".toList
        "A, B, Add. VP-CH-2510-23, ZLPK (TS), pine".toList none)).drop 1) ∧
    (∀ tmpl folder : List Char, ∀ ns : List (List Char), ns ≠ [] →
      (parseNameByCommas (buildUploadTableFilename tmpl folder (some ns))).getD 0 [] =
        invoiceNumbersToRangeString ns ++ ' ' :: (natChars ns.length ++ " pcs.".toList)) ∧
    (∀ tmpl folder : List Char,
      buildUploadTableFilename tmpl folder (some []) =
        buildUploadTableFilename tmpl folder none) ∧
    (∀ tmpl folder : List Char,
      (parseNameByCommas tmpl).getD 0 [] ≠ [] →
      (∀ c ∈ (parseNameByCommas tmpl).getD 0 [], subIllegal c = c) →
      ',' ∉ (parseNameByCommas tmpl).getD 0 [] →
      isStripChar (((parseNameByCommas tmpl).getD 0 []).headD ' ') = false →
      isStripChar (((parseNameByCommas tmpl).getD 0 []).getLastD ' ') = false →
      pyTrim ((parseNameByCommas tmpl).getD 0 []) = (parseNameByCommas tmpl).getD 0 [] →
      (parseNameByCommas (buildUploadTableFilename tmpl folder none)).getD 0 [] =
        (parseNameByCommas tmpl).getD 0 []) := by
  refine ⟨⟨by decide, by decide⟩, ⟨by decide, by decide⟩, ?_, ?_, ?_⟩
  · intro tmpl folder ns hns
    obtain ⟨n0, ns2, rfl⟩ := List.exists_cons_of_ne_nil hns
    obtain ⟨p1, p2, p3, p4, p5, p6⟩ := range_firstPart_props (n0 :: ns2) (n0 :: ns2).length
    unfold buildUploadTableFilename
    dsimp only
    exact assembleName_firstPart _ _ p1 p2 p3 p4 p5 p6
  · intro tmpl folder
    rfl
  · intro tmpl folder h1 h2 h3 h4 h5 h6
    cases hpp : parseNameByCommas tmpl with
    | nil => exact absurd hpp (parse_ne_nil tmpl)
    | cons p0 pr =>
      have ht0 : (parseNameByCommas tmpl).getD 0 [] = p0 := by rw [hpp]; rfl
      rw [ht0] at h1 h2 h3 h4 h5 h6
      unfold buildUploadTableFilename
      dsimp only
      rw [hpp]
      exact assembleName_firstPart p0 _ h1 h2 h3 h4 h5 h6

theorem upload_filename_first_part_witness :
    (parseNameByCommas (buildUploadTableFilename "() pcs., LI, 40_2023".toList
        "A, B".toList (some ["5".toList]))).getD 0 [] =
      invoiceNumbersToRangeString ["5".toList] ++ ' ' ::
        (natChars (["5".toList] : List (List Char)).length ++ " pcs.".toList) ∧
    (parseNameByCommas (buildUploadTableFilename "X, LI".toList "A, B".toList none)).getD 0 [] =
      (parseNameByCommas "X, LI".toList).getD 0 [] :=
  ⟨upload_filename_first_part.2.2.1 "() pcs., LI, 40_2023".toList "A, B".toList
      ["5".toList] (by decide),
    upload_filename_first_part.2.2.2.2 "X, LI".toList "A, B".toList (by decide) (by decide)
      (by decide) (by decide) (by decide) (by decide)⟩

/-- **C7, counterexample.**  Supplying an *empty* invoice-number list is
falsy in Python (`if invoice_numbers:`), so the first part is the
template's first part `"() pcs."`, not the encoded range of an empty
list with its count (`"() 0 pcs."`) that the claim's general rule for a
supplied list demands. -/
theorem upload_filename_empty_list_counterexample :
    (parseNameByCommas (buildUploadTableFilename "() pcs., LI, 40_2023".toList
        "A, B, Add. VP-CH-2510-23, ZLPK (TS), pine".toList (some []))).getD 0 [] =
      "() pcs.".toList ∧
    "() pcs.".toList ≠
      invoiceNumbersToRangeString [] ++ ' ' ::
        (natChars ([] : List (List Char)).length ++ " pcs.".toList) := by
  constructor <;> decide

end AutoStuffing
